import Mathlib

set_option maxRecDepth 8000

/-!
Shallow embedding of the `ThreadsafeStream` sample buffer and its helpers
from `src/python/my_utils.py` (the refined library version of the class that
`src/python/opengl_plus_audio_example.py` drafts inline), together with a
model of the two-byte sample codec (`number_to_bytes` / `bytes_to_number`)
and of the oscilloscope pager's window search that the example file leaves
as a docstring TODO.

Conventions of the embedding:
* every `time.time()` reading is passed in explicitly as a rational
  parameter, so every operation is a pure state transformer;
* stream samples are integers; `number_to_bytes` additionally models
  Python 2's float coercion inside `struct.pack`, so it takes a rational;
* operations that can raise (`KeyError` from `get_index`, a failed
  `assert`, an out-of-range `struct.pack`) return `Option`, with `none`
  standing for an uncaught exception.
-/

/-- State of `my_utils.ThreadsafeStream`: `buf` is the circular array
`self._list` (its length is the capacity, fixed at construction), paired
with the external one-past-the-end index `self._right_index`, the cursor
table `self._index_vars` (an association list mapping a name to
`(index, last_updated_timestamp)`, most recent binding first), and
`self._last_extend_timestamp`. -/
structure ThreadsafeStream where
  buf : List Int
  right_index : Nat
  index_vars : List (String × (Int × ℚ))
  last_extend_timestamp : ℚ
  deriving DecidableEq

/-- `ThreadsafeStream.__init__(max_size)`: `self._list = [None] * int(max_size)`,
`self._right_index = 0`, empty cursor table, `self._last_extend_timestamp`
initialised to the current time `t0`.  The unwritten `None` placeholders are
modelled as `0`; they are unobservable because `get_slice` clamps every
index into `[left_index, right_index]`. -/
def freshStream (max_size : Nat) (t0 : ℚ) : ThreadsafeStream :=
  { buf := List.replicate max_size 0
    right_index := 0
    index_vars := []
    last_extend_timestamp := t0 }

/-- Property `left_index`: `max(0, self._right_index - len(self._list))`. -/
def ThreadsafeStream.left_index (s : ThreadsafeStream) : Int :=
  max 0 ((s.right_index : Int) - (s.buf.length : Int))

/-- The `for value in new_slice` loop of `extend`: write each value at
`self._right_index % len(self._list)` and increment `self._right_index`. -/
def ThreadsafeStream.extendLoop : ThreadsafeStream → List Int → ThreadsafeStream
  | s, [] => s
  | s, v :: vs =>
    ThreadsafeStream.extendLoop
      { s with
        buf := s.buf.set (s.right_index % s.buf.length) v
        right_index := s.right_index + 1 } vs

/-- `extend(new_slice)`: run the write loop, then
`self._last_extend_timestamp = time.time()` (the reading is passed as
`now`). -/
def ThreadsafeStream.extend (s : ThreadsafeStream) (new_slice : List Int) (now : ℚ) :
    ThreadsafeStream :=
  let s' := s.extendLoop new_slice
  { s' with last_extend_timestamp := now }

/-- `get_slice(begin, end)`: a negative bound is shifted by
`self._right_index`, then both bounds are raised to `self.left_index` and
lowered to `self._right_index`, and the result is
`[self._list[i % len(self._list)] for i in range(begin, end)]`. -/
def ThreadsafeStream.get_slice (s : ThreadsafeStream) (b e : Int) : List Int :=
  let b1 : Int := if b < 0 then (s.right_index : Int) + b else b
  let e1 : Int := if e < 0 then (s.right_index : Int) + e else e
  let b3 : Int := min (max b1 s.left_index) (s.right_index : Int)
  let e3 : Int := min (max e1 s.left_index) (s.right_index : Int)
  (List.range (e3.toNat - b3.toNat)).map
    fun k => s.buf.getD ((b3.toNat + k) % s.buf.length) 0

/-- `__len__`: `min(self._right_index, len(self._list))`. -/
def ThreadsafeStream.len (s : ThreadsafeStream) : Nat :=
  min s.right_index s.buf.length

/-- `set_index(index_name, new_value)`: store `(new_value, time.time())`
under `index_name` (the time reading is passed as `now`); the new binding
shadows any previous one, matching dict assignment. -/
def ThreadsafeStream.set_index (s : ThreadsafeStream) (index_name : String)
    (new_value : Int) (now : ℚ) : ThreadsafeStream :=
  { s with index_vars := (index_name, (new_value, now)) :: s.index_vars }

/-- `set_index_default(index_name, new_value_if_nonexistent)`: only writes
when the name is absent. -/
def ThreadsafeStream.set_index_default (s : ThreadsafeStream) (index_name : String)
    (new_value_if_nonexistent : Int) (now : ℚ) : ThreadsafeStream :=
  match s.index_vars.lookup index_name with
  | some _ => s
  | none =>
    { s with index_vars := (index_name, (new_value_if_nonexistent, now)) :: s.index_vars }

/-- `get_index(index_name)`: `self._index_vars[index_name][0]`; `none`
models the `KeyError` raised on an absent name. -/
def ThreadsafeStream.get_index (s : ThreadsafeStream) (index_name : String) : Option Int :=
  (s.index_vars.lookup index_name).map Prod.fst

/-- `get_index_timestamp(index_name)`: `self._index_vars[index_name][1]`;
`none` models the `KeyError` raised on an absent name. -/
def ThreadsafeStream.get_index_timestamp (s : ThreadsafeStream) (index_name : String) :
    Option ℚ :=
  (s.index_vars.lookup index_name).map Prod.snd

/-- `get_time_span(index_name, sample_rate, assume_right_index_movement,
assume_index_var_movement)`; `now` is the single `time.time()` reading taken
during the call.  `none` models the `KeyError` on an absent cursor name. -/
def ThreadsafeStream.get_time_span (s : ThreadsafeStream) (index_name : String)
    (sample_rate : ℚ) (assume_right_index_movement assume_index_var_movement : Bool)
    (now : ℚ) : Option ℚ :=
  match s.get_index index_name, s.get_index_timestamp index_name with
  | some idx, some ts =>
    let r0 : ℚ := ((s.right_index : ℚ) - (idx : ℚ)) / sample_rate
    let r1 : ℚ := if assume_right_index_movement then r0 + (now - s.last_extend_timestamp) else r0
    let r2 : ℚ := if assume_index_var_movement then r1 - (now - ts) else r1
    some r2
  | _, _ => none

/-- The cursor name `'pyaudio_output'` used by the output callback. -/
def outName : String := "pyaudio_output"

/-- `pyaudio_output_callback` at the sample level: `t1` and `t2` are the two
`time.time()` readings taken inside `set_index_default` and `set_index`; the
returned list is the `out_numbers` block handed to `number_list_to_bytes`.
`none` models an uncaught exception (a `KeyError` or a failed `assert`);
the two `if` guards before `some` are the two `assert` statements. -/
def ThreadsafeStream.pyaudio_output_callback (s : ThreadsafeStream)
    (frame_count : Nat) (t1 t2 : ℚ) : Option (List Int × ThreadsafeStream) :=
  let s1 := s.set_index_default outName 0 t1
  match s1.get_index outName with
  | none => none
  | some index0 =>
    let index : Int := if index0 < s1.left_index then s1.left_index else index0
    let out_numbers := s1.get_slice index (index + frame_count)
    let s2 := s1.set_index outName (index + out_numbers.length) t2
    match s2.get_index outName with
    | none => none
    | some check =>
      if s2.left_index ≤ check ∧ check ≤ (s2.right_index : Int) then
        let padded := if out_numbers.length < frame_count
          then out_numbers ++ List.replicate (frame_count - out_numbers.length) 0
          else out_numbers
        if padded.length = frame_count then some (padded, s2) else none
      else none

/-- Truncation toward zero: Python 2's `int()` conversion, which is how
`struct.pack` coerces a float argument (with a `DeprecationWarning`) before
range-checking it. -/
def pyTrunc (q : ℚ) : Int := if 0 ≤ q then ⌊q⌋ else ⌈q⌉

/-- `number_to_bytes(n) = struct.pack('<h', n)`: coerce to an integer by
truncation toward zero, check `-32768 <= v <= 32767`, and emit the two
little-endian bytes of the value's 16-bit two's complement; `none` models
the `struct.error` raised outside the range. -/
def number_to_bytes (n : ℚ) : Option (Nat × Nat) :=
  let v : Int := pyTrunc n
  if -32768 ≤ v ∧ v ≤ 32767 then
    let u : Nat := (v % 65536).toNat
    some (u % 256, u / 256)
  else none

/-- `bytes_to_number(b) = struct.unpack('<h', b)[0]`: read the two
little-endian bytes as an unsigned 16-bit value and re-interpret it as a
signed short.  The components of `b` are byte values (< 256). -/
def bytes_to_number (b : Nat × Nat) : Int :=
  let u : Nat := b.1 + 256 * b.2
  if 32768 ≤ u then (u : Int) - 65536 else (u : Int)

/-- Apply a sequence of `extend` calls (each a payload list paired with its
`time.time()` reading) to a stream, in order. -/
def applyCalls : ThreadsafeStream → List (List Int × ℚ) → ThreadsafeStream
  | s, [] => s
  | s, c :: cs => applyCalls (s.extend c.1 c.2) cs

/-- A stream freshly constructed with capacity `cap` at time `t0`, after a
sequence of `extend` calls. -/
def buildStream (cap : Nat) (t0 : ℚ) (calls : List (List Int × ℚ)) : ThreadsafeStream :=
  applyCalls (freshStream cap t0) calls

/-- The bound clamping described by the spec for `get_slice`: a negative
bound `x` is first replaced by `right_index + x`, then the result is clamped
into `[left_index, right_index]`. -/
def clampBound (s : ThreadsafeStream) (x : Int) : Int :=
  min (max (if x < 0 then (s.right_index : Int) + x else x) s.left_index) (s.right_index : Int)

/-- The entry value of the `'pyaudio_output'` cursor as the callback reads it
after `set_index_default(..., 0)`: the stored position, or `0` when the
cursor did not exist yet. -/
def ThreadsafeStream.outCursor0 (s : ThreadsafeStream) : Int :=
  (s.get_index outName).getD 0

/-- The callback's working cursor after the fell-behind check:
`if index < self.left_index: index = self.left_index`. -/
def ThreadsafeStream.outCursorClamped (s : ThreadsafeStream) : Int :=
  if s.outCursor0 < s.left_index then s.left_index else s.outCursor0

/-- The block of samples the callback actually obtains from the stream:
`self.get_slice(index, index + frame_count)` at the clamped cursor. -/
def ThreadsafeStream.slRead (s : ThreadsafeStream) (frame_count : Nat) : List Int :=
  s.get_slice s.outCursorClamped (s.outCursorClamped + frame_count)

/-- Correspondence between a stream state and the full history `h` of all
samples ever extended into it: the external index space has grown to
`h.length`, and every still-retrievable logical index `i` (those with
`right_index - capacity ≤ i < right_index`) reads back `h[i]` from the
circular array. -/
def ringMatches (s : ThreadsafeStream) (h : List Int) : Prop :=
  s.right_index = h.length ∧
  ∀ i : Nat, s.right_index ≤ i + s.buf.length → i < s.right_index →
    s.buf.getD (i % s.buf.length) 0 = h.getD i 0

/-- Modelled from the spec: the source leaves the oscilloscope pager as a
docstring TODO ("Write an oscilloscope app", opengl_plus_audio_example.py
lines 56-64), so there is no `findBestOffset` code.  Following §4.5 of the
spec, the admissible trigger offsets are those `o` in
`[0, len(candidate) - numSamplesToRender]` at which the waveform makes an
upward zero crossing: `candidate[o] ≤ 0 < candidate[o+1]`. -/
def crossingOffsets (candidate : List Int) (numSamplesToRender : Nat) : List Nat :=
  (List.range (candidate.length + 1 - numSamplesToRender)).filter fun o =>
    decide (o + 1 < candidate.length) && decide (candidate.getD o 0 ≤ 0) &&
      decide (0 < candidate.getD (o + 1) 0)

/-- Modelled from the spec: the similarity score between the page starting
at offset `o` and the previously rendered page, chosen here as the negative
sum of squared differences (§4.5 leaves the metric to the implementer). -/
def matchScore (candidate lastRenderedData : List Int) (numSamplesToRender o : Nat) : Int :=
  - ((List.range numSamplesToRender).foldl
      (fun acc k => acc + (candidate.getD (o + k) 0 - lastRenderedData.getD k 0) ^ 2) 0)

/-- Modelled from the spec: pick the offset with the highest score, ties
broken by the earliest offset; `none` on an empty candidate list. -/
def bestOffsetOf (f : Nat → Int) : List Nat → Option Nat
  | [] => none
  | o :: os => some (os.foldl (fun b x => if f b < f x then x else b) o)

/-- Modelled from the spec: `findBestOffset(candidate, lastRenderedData)`
searches the upward-zero-crossing offsets for the best match with the
previous page, and falls back to the most recent possible window,
`len(candidate) - numSamplesToRender`, when no crossing exists. -/
def findBestOffset (candidate lastRenderedData : List Int) (numSamplesToRender : Nat) : Int :=
  match bestOffsetOf (matchScore candidate lastRenderedData numSamplesToRender)
      (crossingOffsets candidate numSamplesToRender) with
  | some o => (o : Int)
  | none => (candidate.length : Int) - (numSamplesToRender : Int)

/-! ### Frame lemmas for `extend` and stream construction -/

theorem extendLoop_fields (vs : List Int) :
    ∀ s : ThreadsafeStream,
      (s.extendLoop vs).buf.length = s.buf.length ∧
      (s.extendLoop vs).right_index = s.right_index + vs.length ∧
      (s.extendLoop vs).index_vars = s.index_vars ∧
      (s.extendLoop vs).last_extend_timestamp = s.last_extend_timestamp := by
  induction vs with
  | nil => intro s; simp [ThreadsafeStream.extendLoop]
  | cons v vs ih =>
    intro s
    obtain ⟨h1, h2, h3, h4⟩ := ih
      { s with buf := s.buf.set (s.right_index % s.buf.length) v
               right_index := s.right_index + 1 }
    have hstep : s.extendLoop (v :: vs) =
        ThreadsafeStream.extendLoop
          { s with buf := s.buf.set (s.right_index % s.buf.length) v
                   right_index := s.right_index + 1 } vs := rfl
    rw [hstep]
    refine ⟨?_, ?_, h3, h4⟩
    · simpa using h1
    · simp only [h2]; simp; omega

theorem extend_fields (s : ThreadsafeStream) (vs : List Int) (now : ℚ) :
    (s.extend vs now).buf.length = s.buf.length ∧
    (s.extend vs now).right_index = s.right_index + vs.length ∧
    (s.extend vs now).index_vars = s.index_vars ∧
    (s.extend vs now).last_extend_timestamp = now := by
  obtain ⟨h1, h2, h3, _⟩ := extendLoop_fields vs s
  exact ⟨h1, h2, h3, rfl⟩

/-- **C10.** `extend(values)` leaves the cursor table completely unchanged
(every named cursor keeps its stored position and timestamp), advances
`right_index` by exactly `len(values)` (which also determines the derived
`left_index`), keeps the capacity fixed, and refreshes
`last_extend_timestamp` to the time of the call — including when `values`
is empty, since the timestamp assignment is outside the write loop. -/
theorem extend_cursor_table_frame (s : ThreadsafeStream) (vs : List Int) (now : ℚ) :
    (s.extend vs now).index_vars = s.index_vars ∧
    (s.extend vs now).right_index = s.right_index + vs.length ∧
    (s.extend vs now).last_extend_timestamp = now ∧
    (s.extend vs now).buf.length = s.buf.length :=
  ⟨(extend_fields s vs now).2.2.1, (extend_fields s vs now).2.1,
    (extend_fields s vs now).2.2.2, (extend_fields s vs now).1⟩

theorem applyCalls_fields (cs : List (List Int × ℚ)) :
    ∀ s : ThreadsafeStream,
      (applyCalls s cs).buf.length = s.buf.length ∧
      (applyCalls s cs).right_index = s.right_index + (cs.map fun c => c.1.length).sum ∧
      (applyCalls s cs).index_vars = s.index_vars := by
  induction cs with
  | nil => intro s; simp [applyCalls]
  | cons c cs ih =>
    intro s
    obtain ⟨h1, h2, h3⟩ := ih (s.extend c.1 c.2)
    obtain ⟨e1, e2, e3, _⟩ := extend_fields s c.1 c.2
    have hstep : applyCalls s (c :: cs) = applyCalls (s.extend c.1 c.2) cs := rfl
    refine ⟨?_, ?_, ?_⟩
    · rw [hstep, h1, e1]
    · rw [hstep, h2, e2]; simp; omega
    · rw [hstep, h3, e3]

theorem buildStream_buf_length (cap : Nat) (t0 : ℚ) (calls : List (List Int × ℚ)) :
    (buildStream cap t0 calls).buf.length = cap := by
  have h := (applyCalls_fields calls (freshStream cap t0)).1
  simpa [buildStream, freshStream] using h

theorem buildStream_right_index (cap : Nat) (t0 : ℚ) (calls : List (List Int × ℚ)) :
    (buildStream cap t0 calls).right_index = (calls.map fun c => c.1.length).sum := by
  have h := (applyCalls_fields calls (freshStream cap t0)).2.1
  simpa [buildStream, freshStream] using h

theorem buildStream_index_vars (cap : Nat) (t0 : ℚ) (calls : List (List Int × ℚ)) :
    (buildStream cap t0 calls).index_vars = [] := by
  have h := (applyCalls_fields calls (freshStream cap t0)).2.2
  simpa [buildStream, freshStream] using h

/-- **C1.** For every stream created with capacity `cap > 0` and every
sequence of `extend` calls, `right_index` after all the calls is the sum of
the argument lengths, and after every individual call (i.e. after every
number `n` of leading calls) `left_index = max(0, right_index - capacity)`. -/
theorem extend_right_index_sum (cap : Nat) (t0 : ℚ) (calls : List (List Int × ℚ))
    (hcap : 0 < cap) :
    (buildStream cap t0 calls).right_index = (calls.map fun c => c.1.length).sum ∧
    ∀ n : Nat,
      (buildStream cap t0 (calls.take n)).left_index =
        max 0 (((buildStream cap t0 (calls.take n)).right_index : Int) - (cap : Int)) := by
  refine ⟨buildStream_right_index cap t0 calls, fun n => ?_⟩
  rw [ThreadsafeStream.left_index, buildStream_buf_length]

/-- Witness for `extend_right_index_sum`: capacity 2, one `extend` of three
samples; `right_index = 3` and after the (single) call
`left_index = max(0, 3 - 2)`. -/
theorem extend_right_index_sum_witness :
    (buildStream 2 0 [([1, 2, 3], 0)]).right_index = 3 ∧
    (buildStream 2 0 ([([1, 2, 3], 0)].take 1)).left_index =
      max 0 (((buildStream 2 0 ([([1, 2, 3], 0)].take 1)).right_index : Int) - (2 : Int)) := by
  obtain ⟨h1, h2⟩ := extend_right_index_sum 2 0 [([1, 2, 3], 0)] (by decide)
  exact ⟨by simpa using h1, h2 1⟩

/-- **C8** (the behaviour of `my_utils.ThreadsafeStream.__len__`, which the
broken draft `__len__(self, yyy)` in `opengl_plus_audio_example.py` was
meant to have): on every stream reached by `extend` calls, `len` returns
`min(rightIndex, capacity)`, the number of retrievable samples. -/
theorem len_min_formula (cap : Nat) (t0 : ℚ) (calls : List (List Int × ℚ)) :
    (buildStream cap t0 calls).len = min ((calls.map fun c => c.1.length).sum) cap := by
  rw [ThreadsafeStream.len, buildStream_buf_length, buildStream_right_index]

/-! ### The circular array realises the logical sample history -/

theorem getD_set_self_of_lt (l : List Int) (j : Nat) (v : Int) (h : j < l.length) :
    (l.set j v).getD j 0 = v := by
  rw [List.getD_eq_getElem _ _ (by simpa using h)]
  exact List.getElem_set_self _

theorem getD_set_ne (l : List Int) (j k : Nat) (v : Int) (h : j ≠ k) :
    (l.set j v).getD k 0 = l.getD k 0 := by
  by_cases hk : k < l.length
  · rw [List.getD_eq_getElem _ _ (by simpa using hk), List.getD_eq_getElem _ _ hk]
    exact List.getElem_set_ne h _
  · have hk1 : l.length ≤ k := by omega
    rw [List.getD_eq_default _ _ (by simpa using hk1), List.getD_eq_default _ _ hk1]

theorem getD_append_left (l t : List Int) (i : Nat) (h : i < l.length) :
    (l ++ t).getD i 0 = l.getD i 0 := by
  rw [List.getD_eq_getElem _ _ (by simp; omega), List.getD_eq_getElem _ _ h,
    List.getElem_append_left]

theorem getD_append_length (h : List Int) (v : Int) :
    (h ++ [v]).getD h.length 0 = v := by
  rw [List.getD_eq_getElem _ _ (by simp)]
  simp

theorem mod_ne_of_between (cap i r : Nat) (hcap : 0 < cap) (h1 : i < r) (h2 : r < i + cap) :
    i % cap ≠ r % cap := by
  intro heq
  have hdvd : cap ∣ r - i := (Nat.modEq_iff_dvd' (le_of_lt h1)).mp heq
  have := Nat.le_of_dvd (by omega) hdvd
  omega

theorem ringMatches_fresh (cap : Nat) (t0 : ℚ) : ringMatches (freshStream cap t0) [] := by
  refine ⟨rfl, fun i h1 h2 => ?_⟩
  simp [freshStream] at h2

theorem ringMatches_step (s : ThreadsafeStream) (h : List Int) (v : Int)
    (hcap : 0 < s.buf.length) (hm : ringMatches s h) :
    ringMatches
      { s with buf := s.buf.set (s.right_index % s.buf.length) v
               right_index := s.right_index + 1 } (h ++ [v]) := by
  obtain ⟨hlen, hinv⟩ := hm
  refine ⟨by simpa using hlen, fun i hges hlt => ?_⟩
  have hges' : s.right_index + 1 ≤ i + s.buf.length := by simpa using hges
  have hlt' : i < s.right_index + 1 := by simpa using hlt
  show (s.buf.set (s.right_index % s.buf.length) v).getD
      (i % (s.buf.set (s.right_index % s.buf.length) v).length) 0 = (h ++ [v]).getD i 0
  rw [List.length_set]
  rcases Nat.lt_succ_iff_lt_or_eq.mp hlt' with hi | hi
  · have hne : i % s.buf.length ≠ s.right_index % s.buf.length :=
      mod_ne_of_between s.buf.length i s.right_index hcap hi (by omega)
    rw [getD_set_ne _ _ _ _ (Ne.symm hne), getD_append_left _ _ _ (by omega)]
    exact hinv i (by omega) hi
  · subst hi
    rw [getD_set_self_of_lt _ _ _ (Nat.mod_lt _ hcap), hlen, getD_append_length]

theorem ringMatches_extendLoop (vs : List Int) :
    ∀ (s : ThreadsafeStream) (h : List Int), 0 < s.buf.length → ringMatches s h →
      ringMatches (s.extendLoop vs) (h ++ vs) := by
  induction vs with
  | nil => intro s h _ hm; simpa using hm
  | cons v vs ih =>
    intro s h hcap hm
    have hstep : s.extendLoop (v :: vs) =
        ThreadsafeStream.extendLoop
          { s with buf := s.buf.set (s.right_index % s.buf.length) v
                   right_index := s.right_index + 1 } vs := rfl
    rw [hstep]
    have hres := ih _ (h ++ [v]) (by simpa using hcap) (ringMatches_step s h v hcap hm)
    simpa using hres

theorem ringMatches_extend (s : ThreadsafeStream) (h : List Int) (vs : List Int) (now : ℚ)
    (hcap : 0 < s.buf.length) (hm : ringMatches s h) :
    ringMatches (s.extend vs now) (h ++ vs) :=
  ringMatches_extendLoop vs s h hcap hm

theorem ringMatches_applyCalls (cs : List (List Int × ℚ)) :
    ∀ (s : ThreadsafeStream) (h : List Int), 0 < s.buf.length → ringMatches s h →
      ringMatches (applyCalls s cs) (h ++ (cs.map Prod.fst).flatten) := by
  induction cs with
  | nil => intro s h _ hm; simpa using hm
  | cons c cs ih =>
    intro s h hcap hm
    have hstep : applyCalls s (c :: cs) = applyCalls (s.extend c.1 c.2) cs := rfl
    rw [hstep]
    have hcap' : 0 < (s.extend c.1 c.2).buf.length := by
      rw [(extend_fields s c.1 c.2).1]; exact hcap
    have hres := ih (s.extend c.1 c.2) (h ++ c.1) hcap'
      (ringMatches_extend s h c.1 c.2 hcap hm)
    simpa using hres

theorem buildStream_ringMatches (cap : Nat) (t0 : ℚ) (calls : List (List Int × ℚ))
    (hcap : 0 < cap) :
    ringMatches (buildStream cap t0 calls) ((calls.map Prod.fst).flatten) := by
  have hres := ringMatches_applyCalls calls (freshStream cap t0) []
    (by simpa [freshStream] using hcap) (ringMatches_fresh cap t0)
  simpa [buildStream] using hres

/-! ### `get_slice` returns the history samples at the clamped bounds -/

theorem range_map_getD (h : List Int) :
    ∀ (n cb : Nat), cb + n ≤ h.length →
      (List.range n).map (fun k => h.getD (cb + k) 0) = (h.drop cb).take n := by
  intro n
  induction n with
  | zero => intro cb _; simp
  | succ n ih =>
    intro cb hle
    have hcb : cb < h.length := by omega
    rw [List.range_succ_eq_map, List.map_cons, List.map_map,
      List.drop_eq_getElem_cons hcb, List.take_succ_cons]
    congr 1
    · rw [List.getD_eq_getElem _ _ (by simpa using hcb)]
      simp
    · have hrec := ih (cb + 1) (by omega)
      rw [← hrec]
      apply List.map_congr_left
      intro a _
      show h.getD (cb + (a + 1)) 0 = h.getD (cb + 1 + a) 0
      have harg : cb + (a + 1) = cb + 1 + a := by omega
      rw [harg]

theorem left_index_nonneg (s : ThreadsafeStream) : 0 ≤ s.left_index :=
  le_max_left 0 _

theorem left_index_le_right (s : ThreadsafeStream) : s.left_index ≤ (s.right_index : Int) := by
  apply max_le (Int.natCast_nonneg _)
  omega

theorem clampBound_nonneg (s : ThreadsafeStream) (x : Int) : 0 ≤ clampBound s x :=
  le_min (le_trans (left_index_nonneg s) (le_max_right _ _)) (Int.natCast_nonneg _)

theorem clampBound_le_right (s : ThreadsafeStream) (x : Int) :
    clampBound s x ≤ (s.right_index : Int) :=
  min_le_right _ _

theorem left_le_clampBound (s : ThreadsafeStream) (x : Int) :
    s.left_index ≤ clampBound s x :=
  le_min (le_max_right _ _) (left_index_le_right s)

theorem get_slice_eq_clamp (s : ThreadsafeStream) (b e : Int) :
    s.get_slice b e =
      (List.range ((clampBound s e).toNat - (clampBound s b).toNat)).map
        (fun k => s.buf.getD (((clampBound s b).toNat + k) % s.buf.length) 0) := rfl

theorem get_slice_length_eq (s : ThreadsafeStream) (b e : Int) :
    (s.get_slice b e).length = (clampBound s e).toNat - (clampBound s b).toNat := by
  rw [get_slice_eq_clamp]
  simp

/-- On any stream whose circular array realises a history `h`, `get_slice`
returns exactly the history samples at the clamped logical bounds. -/
theorem get_slice_eq_history (s : ThreadsafeStream) (h : List Int) (b e : Int)
    (hcap : 0 < s.buf.length) (hm : ringMatches s h) :
    s.get_slice b e =
      (h.drop (clampBound s b).toNat).take
        ((clampBound s e).toNat - (clampBound s b).toNat) := by
  obtain ⟨hlen, hinv⟩ := hm
  have hb0 : 0 ≤ clampBound s b := clampBound_nonneg s b
  have he0 : 0 ≤ clampBound s e := clampBound_nonneg s e
  have hbI : ((clampBound s b).toNat : Int) = clampBound s b := Int.toNat_of_nonneg hb0
  have heI : ((clampBound s e).toNat : Int) = clampBound s e := Int.toNat_of_nonneg he0
  have hbr : clampBound s b ≤ (s.right_index : Int) := clampBound_le_right s b
  have her : clampBound s e ≤ (s.right_index : Int) := clampBound_le_right s e
  have hbl : s.left_index ≤ clampBound s b := left_le_clampBound s b
  have hgap : (s.right_index : Int) - (s.buf.length : Int) ≤ s.left_index :=
    le_max_right _ _
  rw [get_slice_eq_clamp]
  have hmain :
      (List.range ((clampBound s e).toNat - (clampBound s b).toNat)).map
          (fun k => s.buf.getD (((clampBound s b).toNat + k) % s.buf.length) 0) =
        (List.range ((clampBound s e).toNat - (clampBound s b).toNat)).map
          (fun k => h.getD ((clampBound s b).toNat + k) 0) := by
    apply List.map_congr_left
    intro k hk
    rw [List.mem_range] at hk
    exact hinv ((clampBound s b).toNat + k) (by omega) (by omega)
  rw [hmain]
  apply range_map_getD
  omega

/-- **C2.** On every stream built by `extend` calls with capacity `cap > 0`,
`get_slice(begin, end)` first replaces a negative bound `x` by
`right_index + x`, then clamps both bounds into `[left_index, right_index]`
(`clampBound`), and returns exactly the extended samples at the clamped
logical indices `[begin, end)`; the result has length
`clamp(end) - clamp(begin)` (as a truncated subtraction, so positive
difference or empty), and in particular is empty whenever
`clamp(begin) ≥ clamp(end)`.  The operation is total: no integer bounds
make it raise. -/
theorem get_slice_spec (cap : Nat) (t0 : ℚ) (calls : List (List Int × ℚ)) (b e : Int)
    (hcap : 0 < cap) :
    (buildStream cap t0 calls).get_slice b e =
      (((calls.map Prod.fst).flatten).drop
          ((clampBound (buildStream cap t0 calls) b).toNat)).take
        ((clampBound (buildStream cap t0 calls) e).toNat -
          (clampBound (buildStream cap t0 calls) b).toNat) ∧
    ((buildStream cap t0 calls).get_slice b e).length =
      (clampBound (buildStream cap t0 calls) e).toNat -
        (clampBound (buildStream cap t0 calls) b).toNat ∧
    (clampBound (buildStream cap t0 calls) e ≤ clampBound (buildStream cap t0 calls) b →
      (buildStream cap t0 calls).get_slice b e = []) := by
  have hcap' : 0 < (buildStream cap t0 calls).buf.length := by
    rw [buildStream_buf_length]; exact hcap
  have hm := buildStream_ringMatches cap t0 calls hcap
  refine ⟨get_slice_eq_history _ _ b e hcap' hm, get_slice_length_eq _ b e, fun hle => ?_⟩
  have hb0 : 0 ≤ clampBound (buildStream cap t0 calls) b :=
    clampBound_nonneg _ b
  have hzero : (clampBound (buildStream cap t0 calls) e).toNat -
      (clampBound (buildStream cap t0 calls) b).toNat = 0 := by omega
  rw [get_slice_eq_clamp, hzero]
  simp

/-- Witness for `get_slice_spec`: capacity 3, history `[10, 20, 30, 40]`
(so `left_index = 1`), out-of-range bounds `0` and `10` clamp to `1` and
`4` and yield the three retrievable samples. -/
theorem get_slice_spec_witness :
    (buildStream 3 0 [([10, 20, 30, 40], 0)]).get_slice 0 10 = [20, 30, 40] := by
  have h := (get_slice_spec 3 0 [([10, 20, 30, 40], 0)] 0 10 (by decide)).1
  rw [h]
  decide

/-! ### Cursor bookkeeping lemmas -/

theorem set_index_default_fields (s : ThreadsafeStream) (n : String) (v : Int) (t : ℚ) :
    (s.set_index_default n v t).buf = s.buf ∧
    (s.set_index_default n v t).right_index = s.right_index := by
  unfold ThreadsafeStream.set_index_default
  cases s.index_vars.lookup n <;> simp

theorem get_index_set_index_default_self (s : ThreadsafeStream) (n : String) (v : Int)
    (t : ℚ) :
    (s.set_index_default n v t).get_index n = some ((s.get_index n).getD v) := by
  unfold ThreadsafeStream.set_index_default ThreadsafeStream.get_index
  cases hl : s.index_vars.lookup n with
  | none => simp [hl, List.lookup]
  | some p => simp [hl]

theorem set_index_fields (s : ThreadsafeStream) (n : String) (v : Int) (t : ℚ) :
    (s.set_index n v t).buf = s.buf ∧ (s.set_index n v t).right_index = s.right_index := by
  simp [ThreadsafeStream.set_index]

theorem get_index_set_index_self (s : ThreadsafeStream) (n : String) (v : Int) (t : ℚ) :
    (s.set_index n v t).get_index n = some v := by
  simp [ThreadsafeStream.set_index, ThreadsafeStream.get_index, List.lookup]

theorem left_index_congr (s s' : ThreadsafeStream) (hb : s'.buf = s.buf)
    (hr : s'.right_index = s.right_index) : s'.left_index = s.left_index := by
  simp [ThreadsafeStream.left_index, hb, hr]

theorem get_slice_congr (s s' : ThreadsafeStream) (hb : s'.buf = s.buf)
    (hr : s'.right_index = s.right_index) (b e : Int) :
    s'.get_slice b e = s.get_slice b e := by
  simp [ThreadsafeStream.get_slice, ThreadsafeStream.left_index, hb, hr]

theorem clampBound_of_mem (s : ThreadsafeStream) (x : Int) (h1 : s.left_index ≤ x)
    (h2 : x ≤ (s.right_index : Int)) : clampBound s x = x := by
  have h0 : 0 ≤ x := le_trans (left_index_nonneg s) h1
  unfold clampBound
  rw [if_neg (by omega), max_eq_left h1, min_eq_left h2]

theorem clampBound_of_ge_left (s : ThreadsafeStream) (x : Int) (h1 : s.left_index ≤ x)
    (h0 : 0 ≤ x) : clampBound s x = min x (s.right_index : Int) := by
  unfold clampBound
  rw [if_neg (by omega), max_eq_left h1]

/-! ### The output callback -/

theorem outCursor0_le_right (s : ThreadsafeStream)
    (Hc : ∀ p, s.get_index outName = some p → p ≤ (s.right_index : Int)) :
    s.outCursor0 ≤ (s.right_index : Int) := by
  unfold ThreadsafeStream.outCursor0
  cases hg : s.get_index outName with
  | none => simpa using Int.natCast_nonneg s.right_index
  | some p => simpa using Hc p hg

theorem left_le_outCursorClamped (s : ThreadsafeStream) :
    s.left_index ≤ s.outCursorClamped := by
  unfold ThreadsafeStream.outCursorClamped
  split
  · exact le_refl _
  · omega

theorem outCursorClamped_le_right (s : ThreadsafeStream)
    (Hc : ∀ p, s.get_index outName = some p → p ≤ (s.right_index : Int)) :
    s.outCursorClamped ≤ (s.right_index : Int) := by
  unfold ThreadsafeStream.outCursorClamped
  split
  · exact left_index_le_right s
  · exact outCursor0_le_right s Hc

theorem slRead_length_int (s : ThreadsafeStream) (fc : Nat)
    (Hc : ∀ p, s.get_index outName = some p → p ≤ (s.right_index : Int)) :
    ((s.slRead fc).length : Int) =
      min (s.outCursorClamped + (fc : Int)) (s.right_index : Int) - s.outCursorClamped := by
  have hcll : s.left_index ≤ s.outCursorClamped := left_le_outCursorClamped s
  have hclr : s.outCursorClamped ≤ (s.right_index : Int) := outCursorClamped_le_right s Hc
  have hcl0 : 0 ≤ s.outCursorClamped := le_trans (left_index_nonneg s) hcll
  unfold ThreadsafeStream.slRead
  rw [get_slice_length_eq, clampBound_of_mem s _ hcll hclr,
    clampBound_of_ge_left s _ (by omega) (by omega)]
  omega

/-- Full behaviour of `pyaudio_output_callback` on any state whose
`'pyaudio_output'` cursor (when present) does not exceed `right_index` —
which is every reachable state, since only this callback moves the cursor
and it never pushes it past `right_index`, while `extend` only grows
`right_index`.  The callback succeeds (both asserts pass) and returns the
zero-padded block together with the state whose cursor was advanced. -/
theorem pyaudio_output_callback_eq (s : ThreadsafeStream) (fc : Nat) (t1 t2 : ℚ)
    (Hc : ∀ p, s.get_index outName = some p → p ≤ (s.right_index : Int)) :
    s.pyaudio_output_callback fc t1 t2 =
      some (s.slRead fc ++ List.replicate (fc - (s.slRead fc).length) 0,
        (s.set_index_default outName 0 t1).set_index outName
          (s.outCursorClamped + ((s.slRead fc).length : Int)) t2) := by
  obtain ⟨hbuf1, hr1⟩ := set_index_default_fields s outName 0 t1
  have hleft1 : (s.set_index_default outName 0 t1).left_index = s.left_index :=
    left_index_congr s _ hbuf1 hr1
  have hget1 : (s.set_index_default outName 0 t1).get_index outName =
      some s.outCursor0 := get_index_set_index_default_self s outName 0 t1
  have hcll : s.left_index ≤ s.outCursorClamped := left_le_outCursorClamped s
  have hclr : s.outCursorClamped ≤ (s.right_index : Int) := outCursorClamped_le_right s Hc
  have hcl0 : 0 ≤ s.outCursorClamped := le_trans (left_index_nonneg s) hcll
  have hlen_int : ((s.slRead fc).length : Int) =
      min (s.outCursorClamped + (fc : Int)) (s.right_index : Int) - s.outCursorClamped :=
    slRead_length_int s fc Hc
  have hlen_le : (s.slRead fc).length ≤ fc := by omega
  simp only [ThreadsafeStream.pyaudio_output_callback, hget1]
  rw [hleft1]
  rw [show (if s.outCursor0 < s.left_index then s.left_index else s.outCursor0) =
      s.outCursorClamped from rfl]
  rw [get_slice_congr s _ hbuf1 hr1]
  rw [show s.get_slice s.outCursorClamped (s.outCursorClamped + (fc : Int)) =
      s.slRead fc from rfl]
  simp only [get_index_set_index_self]
  obtain ⟨hbuf2, hr2⟩ := set_index_fields (s.set_index_default outName 0 t1) outName
    (s.outCursorClamped + ((s.slRead fc).length : Int)) t2
  have hleft2 : ((s.set_index_default outName 0 t1).set_index outName
      (s.outCursorClamped + ((s.slRead fc).length : Int)) t2).left_index = s.left_index :=
    left_index_congr s _ (hbuf2.trans hbuf1) (hr2.trans hr1)
  rw [hleft2, hr2, hr1]
  have hcond : s.left_index ≤ s.outCursorClamped + ((s.slRead fc).length : Int) ∧
      s.outCursorClamped + ((s.slRead fc).length : Int) ≤ (s.right_index : Int) :=
    ⟨by omega, by omega⟩
  rw [if_pos hcond]
  by_cases hp : (s.slRead fc).length < fc
  · have hlenfc : (s.slRead fc ++ List.replicate (fc - (s.slRead fc).length) 0).length = fc := by
      simp
      omega
    rw [if_pos hp, if_pos hlenfc]
  · have hfc : (s.slRead fc).length = fc := le_antisymm hlen_le (not_lt.mp hp)
    rw [if_neg hp, if_pos hfc]
    simp [hfc]

theorem freshStream_get_index (cap : Nat) (t0 : ℚ) (n : String) :
    (freshStream cap t0).get_index n = none := by
  simp [freshStream, ThreadsafeStream.get_index]

theorem freshStream_left_index (cap : Nat) (t0 : ℚ) :
    (freshStream cap t0).left_index = 0 := by
  simp [freshStream, ThreadsafeStream.left_index]

theorem freshStream_outCursorClamped (cap : Nat) (t0 : ℚ) :
    (freshStream cap t0).outCursorClamped = 0 := by
  unfold ThreadsafeStream.outCursorClamped ThreadsafeStream.outCursor0
  rw [freshStream_get_index, freshStream_left_index]
  simp

theorem freshStream_slRead (cap : Nat) (t0 : ℚ) (fc : Nat) :
    (freshStream cap t0).slRead fc = [] := by
  have hlen : ((freshStream cap t0).slRead fc).length = 0 := by
    unfold ThreadsafeStream.slRead
    rw [get_slice_length_eq]
    have h1 := clampBound_nonneg (freshStream cap t0) ((freshStream cap t0).outCursorClamped)
    have h2 := clampBound_le_right (freshStream cap t0) ((freshStream cap t0).outCursorClamped)
    have h3 := clampBound_nonneg (freshStream cap t0)
      ((freshStream cap t0).outCursorClamped + (fc : Int))
    have h4 := clampBound_le_right (freshStream cap t0)
      ((freshStream cap t0).outCursorClamped + (fc : Int))
    have hr : ((freshStream cap t0).right_index : Int) = 0 := by simp [freshStream]
    omega
  exact List.eq_nil_of_length_eq_zero hlen

/-- **C3.** For every `frame_count ≥ 0` and every stream state whose
`'pyaudio_output'` cursor does not exceed `right_index` (which is every
reachable state), `pyaudio_output_callback` returns a block of exactly
`frame_count` samples: the samples available starting at the (clamped)
output cursor, followed by zeros for any shortfall; in particular a request
against a freshly created (empty) stream returns `frame_count` zeros. -/
theorem pyaudio_output_callback_block :
    (∀ (s : ThreadsafeStream) (fc : Nat) (t1 t2 : ℚ),
      (∀ p, s.get_index outName = some p → p ≤ (s.right_index : Int)) →
      ∃ s2, s.pyaudio_output_callback fc t1 t2 =
          some (s.slRead fc ++ List.replicate (fc - (s.slRead fc).length) 0, s2) ∧
        (s.slRead fc ++ List.replicate (fc - (s.slRead fc).length) 0).length = fc) ∧
    ∀ (cap fc : Nat) (t0 t1 t2 : ℚ),
      ∃ s2, (freshStream cap t0).pyaudio_output_callback fc t1 t2 =
          some (List.replicate fc 0, s2) := by
  constructor
  · intro s fc t1 t2 Hc
    refine ⟨_, pyaudio_output_callback_eq s fc t1 t2 Hc, ?_⟩
    have hlen_int := slRead_length_int s fc Hc
    have hcll := left_le_outCursorClamped s
    have hclr := outCursorClamped_le_right s Hc
    have hcl0 : 0 ≤ s.outCursorClamped := le_trans (left_index_nonneg s) hcll
    simp
    omega
  · intro cap fc t0 t1 t2
    have Hc : ∀ p, (freshStream cap t0).get_index outName = some p →
        p ≤ ((freshStream cap t0).right_index : Int) := by
      intro p hp
      rw [freshStream_get_index] at hp
      cases hp
    have h := pyaudio_output_callback_eq (freshStream cap t0) fc t1 t2 Hc
    rw [freshStream_slRead] at h
    simp only [List.nil_append, List.length_nil, Nat.sub_zero] at h
    exact ⟨_, h⟩

/-- Witness for `pyaudio_output_callback_block`: a stream of capacity 4
holding `[1, 2, 3]` with no cursor yet; requesting 5 frames returns
`[1, 2, 3, 0, 0]`. -/
theorem pyaudio_output_callback_block_witness :
    Option.map Prod.fst
        ((buildStream 4 0 [([1, 2, 3], 0)]).pyaudio_output_callback 5 0 0) =
      some [1, 2, 3, 0, 0] := by
  have Hc : ∀ p, (buildStream 4 0 [([1, 2, 3], 0)]).get_index outName = some p →
      p ≤ ((buildStream 4 0 [([1, 2, 3], 0)]).right_index : Int) := by
    intro p hp
    rw [show (buildStream 4 0 [([1, 2, 3], 0)]).get_index outName = none from by decide] at hp
    cases hp
  obtain ⟨s2, heq, hlen⟩ :=
    pyaudio_output_callback_block.1 (buildStream 4 0 [([1, 2, 3], 0)]) 5 0 0 Hc
  rw [heq]
  simp only [Option.map_some']
  decide

/-- **C4.** After every call to `pyaudio_output_callback` on a state whose
`'pyaudio_output'` cursor does not exceed `right_index` (every reachable
state), the stored cursor satisfies `leftIndex ≤ position ≤ rightIndex`:
the entry cursor, clamped up to `leftIndex` when it had fallen below it
(non-fatally — the call still succeeds), advanced by exactly the number of
samples actually returned by the slice read. -/
theorem pyaudio_output_callback_cursor (s : ThreadsafeStream) (fc : Nat) (t1 t2 : ℚ)
    (Hc : ∀ p, s.get_index outName = some p → p ≤ (s.right_index : Int)) :
    ∃ out s2, s.pyaudio_output_callback fc t1 t2 = some (out, s2) ∧
      s2.get_index outName = some (s.outCursorClamped + ((s.slRead fc).length : Int)) ∧
      s2.left_index ≤ s.outCursorClamped + ((s.slRead fc).length : Int) ∧
      s.outCursorClamped + ((s.slRead fc).length : Int) ≤ (s2.right_index : Int) ∧
      (s.outCursor0 < s.left_index → s.outCursorClamped = s.left_index) := by
  obtain ⟨hbuf1, hr1⟩ := set_index_default_fields s outName 0 t1
  obtain ⟨hbuf2, hr2⟩ := set_index_fields (s.set_index_default outName 0 t1) outName
    (s.outCursorClamped + ((s.slRead fc).length : Int)) t2
  have hlen_int := slRead_length_int s fc Hc
  have hcll := left_le_outCursorClamped s
  have hclr := outCursorClamped_le_right s Hc
  have hcl0 : 0 ≤ s.outCursorClamped := le_trans (left_index_nonneg s) hcll
  have hleft2 : ((s.set_index_default outName 0 t1).set_index outName
      (s.outCursorClamped + ((s.slRead fc).length : Int)) t2).left_index = s.left_index :=
    left_index_congr s _ (hbuf2.trans hbuf1) (hr2.trans hr1)
  have hright2 : ((s.set_index_default outName 0 t1).set_index outName
      (s.outCursorClamped + ((s.slRead fc).length : Int)) t2).right_index = s.right_index :=
    hr2.trans hr1
  refine ⟨_, _, pyaudio_output_callback_eq s fc t1 t2 Hc,
    get_index_set_index_self _ _ _ _, ?_, ?_, ?_⟩
  · rw [hleft2]
    omega
  · rw [hright2]
    omega
  · intro hlt
    unfold ThreadsafeStream.outCursorClamped
    rw [if_pos hlt]

/-- Witness for `pyaudio_output_callback_cursor`: on the capacity-4 stream
holding `[1, 2, 3]`, a 5-frame request leaves the cursor at `3`
(`0 + 3` samples actually read), inside `[left_index, right_index] = [0, 3]`. -/
theorem pyaudio_output_callback_cursor_witness :
    Option.map (fun p => ThreadsafeStream.get_index p.2 outName)
        ((buildStream 4 0 [([1, 2, 3], 0)]).pyaudio_output_callback 5 0 0) =
      some (some 3) := by
  have Hc : ∀ p, (buildStream 4 0 [([1, 2, 3], 0)]).get_index outName = some p →
      p ≤ ((buildStream 4 0 [([1, 2, 3], 0)]).right_index : Int) := by
    intro p hp
    rw [show (buildStream 4 0 [([1, 2, 3], 0)]).get_index outName = none from by decide] at hp
    cases hp
  obtain ⟨out, s2, heq, hidx, _, _, _⟩ :=
    pyaudio_output_callback_cursor (buildStream 4 0 [([1, 2, 3], 0)]) 5 0 0 Hc
  rw [heq]
  simp only [Option.map_some']
  rw [hidx]
  decide

/-! ### The time-span estimator -/

/-- **C5.** When the named cursor exists (with stored position `p` and
timestamp `ts`), `get_time_span` returns exactly
`(rightIndex - p) / sample_rate`, plus `now - lastWriteTimestamp` when the
writer-movement flag is set, minus `now - ts` when the cursor-movement flag
is set, where `now` is the single current-time reading taken during the
call; with both flags false this is the non-extrapolated value as of the
last observations. -/
theorem get_time_span_formula (s : ThreadsafeStream) (name : String) (rate : ℚ)
    (b1 b2 : Bool) (now : ℚ) (p : Int) (ts : ℚ)
    (hp : s.get_index name = some p) (hts : s.get_index_timestamp name = some ts) :
    s.get_time_span name rate b1 b2 now =
      some (((s.right_index : ℚ) - (p : ℚ)) / rate +
        (if b1 then now - s.last_extend_timestamp else 0) -
        (if b2 then now - ts else 0)) := by
  simp only [ThreadsafeStream.get_time_span, hp, hts]
  cases b1 <;> cases b2 <;> simp

/-- Witness for `get_time_span_formula`: a fresh stream (so
`rightIndex = 0` and `lastWriteTimestamp = 0`) whose cursor is at position 2
with timestamp 3; at `now = 7` with only writer movement assumed, the span
is `(0 - 2)/44100 + (7 - 0) = 7 - 1/22050`. -/
theorem get_time_span_formula_witness :
    ((freshStream 1 0).set_index outName 2 3).get_time_span outName 44100 true false 7 =
      some (7 - 1 / 22050) := by
  have h := get_time_span_formula ((freshStream 1 0).set_index outName 2 3) outName
    44100 true false 7 2 3 (by decide) (by decide)
  rw [h]
  simp [freshStream, ThreadsafeStream.set_index]
  norm_num

/-! ### The two-byte sample codec -/

theorem bytes_to_number_encode (v : Int) (h1 : -32768 ≤ v) (h2 : v ≤ 32767) :
    bytes_to_number ((v % 65536).toNat % 256, (v % 65536).toNat / 256) = v := by
  have hmod : 0 ≤ v % 65536 := Int.emod_nonneg v (by norm_num)
  have hlt : v % 65536 < 65536 := Int.emod_lt_of_pos v (by norm_num)
  have huI : (((v % 65536).toNat : Int)) = v % 65536 := Int.toNat_of_nonneg hmod
  have hrecon : (v % 65536).toNat % 256 + 256 * ((v % 65536).toNat / 256) =
      (v % 65536).toNat := Nat.mod_add_div _ 256
  simp only [bytes_to_number, hrecon]
  split
  · omega
  · omega

/-- **C6.** For every integer `s` with `-32768 ≤ s ≤ 32767`,
`bytes_to_number(number_to_bytes(s)) = s`: the 2-byte signed little-endian
encode/decode pair round-trips exactly on the valid range. -/
theorem bytes_roundtrip (n : Int) (h1 : -32768 ≤ n) (h2 : n ≤ 32767) :
    (number_to_bytes (n : ℚ)).map bytes_to_number = some n := by
  have htr : pyTrunc (n : ℚ) = n := by
    unfold pyTrunc
    split
    · exact Int.floor_intCast n
    · exact Int.ceil_intCast n
  simp only [number_to_bytes, htr]
  rw [if_pos ⟨h1, h2⟩]
  simp only [Option.map_some']
  exact congrArg some (bytes_to_number_encode n h1 h2)

/-- Witness for `bytes_roundtrip`: the sample `-5` encodes to the bytes
`(251, 255)` and decodes back to `-5`. -/
theorem bytes_roundtrip_witness :
    (number_to_bytes ((-5 : Int) : ℚ)).map bytes_to_number = some (-5) :=
  bytes_roundtrip (-5) (by decide) (by decide)

/-- **C7, counterexample.** The non-integer sample `65535/2 = 32767.5` lies
outside `[-32768, 32767]`, yet `number_to_bytes` encodes it successfully
(Python 2's `struct.pack` coerces the float to `int(32767.5) = 32767`
before the range check), so the claim that every numeric input outside the
range fails is false. -/
theorem number_to_bytes_float_counterexample :
    (number_to_bytes ((65535 : ℚ) / 2)).isSome = true ∧ ¬((65535 : ℚ) / 2 ≤ 32767) := by
  have hfloor : ⌊(65535 : ℚ) / 2⌋ = 32767 := by
    rw [Int.floor_eq_iff]
    constructor <;> norm_num
  have htr : pyTrunc ((65535 : ℚ) / 2) = 32767 := by
    unfold pyTrunc
    rw [if_pos (by norm_num), hfloor]
  constructor
  · simp only [number_to_bytes, htr]
    rw [if_pos (by decide)]
    rfl
  · norm_num

/-- **C7, amended.** `number_to_bytes` fails with the `OutOfRange`
(`struct.error`) condition exactly for those numeric inputs whose
truncation toward zero lies outside `[-32768, 32767]` — in particular for
every integer outside the range — and succeeds for every input truncating
into the range, never silently encoding such a value; on success the
encoding composed with `bytes_to_number` recovers the truncated sample, so
on integer samples in the range it is a pure mapping bijective with
`bytes_to_number`. -/
theorem number_to_bytes_range_amended (q : ℚ) :
    (number_to_bytes q = none ↔ (pyTrunc q < -32768 ∨ 32767 < pyTrunc q)) ∧
    ∀ b, number_to_bytes q = some b → bytes_to_number b = pyTrunc q := by
  constructor
  · simp only [number_to_bytes]
    split
    · rename_i h
      simp
      omega
    · rename_i h
      simp
      omega
  · intro b hb
    simp only [number_to_bytes] at hb
    split at hb
    · rename_i h
      rw [Option.some.injEq] at hb
      subst hb
      exact bytes_to_number_encode (pyTrunc q) h.1 h.2
    · exact Option.noConfusion hb

/-- Witness for `number_to_bytes_range_amended`: the non-integer sample
`3/2` truncates to `1`, encodes to the bytes `(1, 0)`, and decodes back to
the truncation. -/
theorem number_to_bytes_range_amended_witness :
    bytes_to_number (1, 0) = pyTrunc ((3 : ℚ) / 2) := by
  apply (number_to_bytes_range_amended ((3 : ℚ) / 2)).2 (1, 0)
  have hfloor : ⌊(3 : ℚ) / 2⌋ = 1 := by
    rw [Int.floor_eq_iff]
    constructor <;> norm_num
  have htr : pyTrunc ((3 : ℚ) / 2) = 1 := by
    unfold pyTrunc
    rw [if_pos (by norm_num), hfloor]
  simp only [number_to_bytes, htr]
  rw [if_pos (by decide)]
  rfl

/-! ### The pager's window search (modelled from the spec) -/

/-- **C9.** For every candidate window that contains no upward zero
crossing — no adjacent sample pair going from `≤ 0` to `> 0` —
`findBestOffset` returns `len(candidate) - numSamplesToRender`, the most
recent possible window (and, being a total function, it never raises), so
the pager always obtains a page when it searches. -/
theorem findBestOffset_no_crossing (candidate lastRenderedData : List Int)
    (numSamplesToRender : Nat)
    (hnc : ∀ i, i + 1 < candidate.length →
      ¬(candidate.getD i 0 ≤ 0 ∧ 0 < candidate.getD (i + 1) 0)) :
    findBestOffset candidate lastRenderedData numSamplesToRender =
      (candidate.length : Int) - (numSamplesToRender : Int) := by
  have hempty : crossingOffsets candidate numSamplesToRender = [] := by
    rw [crossingOffsets, List.filter_eq_nil_iff]
    intro o _ hcon
    simp only [Bool.and_eq_true, decide_eq_true_eq] at hcon
    exact hnc o hcon.1.1 ⟨hcon.1.2, hcon.2⟩
  simp only [findBestOffset, hempty]
  rfl

/-- Witness for `findBestOffset_no_crossing`: the strictly decreasing
positive window `[5, 4, 3, 2, 1]` has no upward zero crossing, so with
`numSamplesToRender = 2` the fallback offset is `5 - 2 = 3`. -/
theorem findBestOffset_no_crossing_witness :
    findBestOffset [5, 4, 3, 2, 1] [] 2 = 3 := by
  have h := findBestOffset_no_crossing [5, 4, 3, 2, 1] [] 2 (by
    intro i hi
    simp only [List.length_cons, List.length_nil] at hi
    have hi4 : i < 4 := by omega
    interval_cases i <;> decide)
  rw [h]
  decide
